import Mathlib

/- Verification of the morpho optimization core: a shallow embedding of the
   functional evaluator, optimizer, Brent minimizer, mesh refiner and sparse
   matrix conversion, with theorems settling the specification claims. -/

namespace Morpho

/- ********************************************************************** -/
/- Data model: functionals, constraint records, optimization problems      -/
/- (optimize.morpho, classes Constraint / Energy / OptimizationProblem)    -/
/- ********************************************************************** -/

/-- A functional object, abstracted by its `total` operation, which takes the
mesh and an optional selection (morpho: `functional.total(mesh)` or
`functional.total(mesh, selection)`). -/
structure Functional (M S α : Type) where
  total : M → Option S → α

/-- The `Constraint` record of optimize.morpho: `init(func, target)` stores the
functional and target; `addconstraint` / `addlocalconstraint` then fill in
selection, field, onesidedness and prefactor. -/
structure Constraint (M F S α : Type) where
  functional : Functional M S α
  target : α
  selection : Option S
  field : Option F
  onesided : Bool
  prefactor : Option α

/-- The `Energy` record of optimize.morpho. -/
structure Energy (M F S α : Type) where
  functional : Functional M S α
  selection : Option S
  prefactor : Option α

/-- The `OptimizationProblem` container of optimize.morpho. -/
structure OptimizationProblem (M F S α : Type) where
  mesh : M
  fields : List F
  energies : List (Energy M F S α)
  constraints : List (Constraint M F S α)
  localconstraints : List (Constraint M F S α)

variable {M F S α : Type}

/-- `OptimizationProblem.addconstraint(functional, selection=nil, field=nil)`:
computes `target = functional.total(mesh, selection)` (or without the selection
when none is given), builds the record and appends it to the constraint list.
Returns the updated problem and the record. -/
def OptimizationProblem.addconstraint (p : OptimizationProblem M F S α)
    (functional : Functional M S α) (selection : Option S) (fld : Option F) :
    OptimizationProblem M F S α × Constraint M F S α :=
  let target : α :=
    match selection with
    | some sel => functional.total p.mesh (some sel)
    | none => functional.total p.mesh none
  let cons : Constraint M F S α :=
    { functional := functional, target := target, selection := selection,
      field := fld, onesided := false, prefactor := none }
  ({ p with constraints := p.constraints ++ [cons] }, cons)

/-- `OptimizationProblem.addlocalconstraint(functional, selection=nil,
field=nil, onesided=false, target=0)`: records the *given* target value
(the declaration default is 0), builds the record and appends it to the local
constraint list. -/
def OptimizationProblem.addlocalconstraint (p : OptimizationProblem M F S α)
    (functional : Functional M S α) (selection : Option S) (fld : Option F)
    (onesided : Bool) (target : α) :
    OptimizationProblem M F S α × Constraint M F S α :=
  let cons : Constraint M F S α :=
    { functional := functional, target := target, selection := selection,
      field := fld, onesided := onesided, prefactor := none }
  ({ p with localconstraints := p.localconstraints ++ [cons] }, cons)

/-- A call of `addlocalconstraint` that supplies neither `onesided` nor
`target`, so both keep their declaration defaults `false` and `0`. -/
def OptimizationProblem.addlocalconstraintDefault [Zero α]
    (p : OptimizationProblem M F S α) (functional : Functional M S α)
    (selection : Option S) (fld : Option F) :
    OptimizationProblem M F S α × Constraint M F S α :=
  p.addlocalconstraint functional selection fld false 0

/-- An empty optimization problem over a given mesh (`OptimizationProblem.init`). -/
def OptimizationProblem.mk0 (m : M) : OptimizationProblem M F S α :=
  { mesh := m, fields := [], energies := [], constraints := [],
    localconstraints := [] }

/- ********************************************************************** -/
/- Optimizer.step and Optimizer.energywithstepsize (optimize.morpho)       -/
/- ********************************************************************** -/

/-- `Optimizer.step(stepsize)`: if there is no force, do nothing; otherwise
`target.acc(-stepsize, frc)` followed by local-constraint reprojection and
global-constraint reprojection (the two reprojection passes are abstracted as
functions on the target). -/
def Optimizer.step [AddCommGroup M] [DivisionRing α] [Module α M]
    (reprojectlocal reprojectcons : M → M) (force : Option M)
    (stepsize : α) (target : M) : M :=
  match force with
  | none => target
  | some frc => reprojectcons (reprojectlocal (target + (-stepsize) • frc))

/-- `Optimizer.energywithstepsize(size)`: save `vsave = target.clone()`, take
the step, evaluate `totalenergy()`, then `settarget(vsave)`. Returns the
energy together with the target left in place after the call. -/
def Optimizer.energywithstepsize [AddCommGroup M] [DivisionRing α] [Module α M]
    (totalenergy : M → α) (reprojectlocal reprojectcons : M → M)
    (force : Option M) (size : α) (target : M) : α × M :=
  let vsave := target
  let stepped := Optimizer.step reprojectlocal reprojectcons force size target
  let energy := totalenergy stepped
  (energy, vsave)

/- ********************************************************************** -/
/- MeshRefiner.refinefield and MeshRefiner.refineselection                 -/
/- (graphics.morpho)                                                       -/
/- ********************************************************************** -/

/-- One entry of the per-grade refinement map built by `refinemesh`: either a
single old element id (copy) or a list of old ids (dict value is a list, e.g. a
midpoint vertex stores its two parent vertices). -/
inductive RefMapEntry : Type
  | single (old : ℕ)
  | parents (olds : List ℕ)
deriving DecidableEq

/-- The value `refinefield` assigns for one refinement-map entry: for a list,
the sum of the parents' field values divided by the number of parents (the code
skips empty lists, keeping the initial value); for a single id, a plain copy. -/
def refinefieldValue [DivisionRing α] (fieldval : ℕ → α) (prev : α) :
    RefMapEntry → α
  | RefMapEntry.single o => fieldval o
  | RefMapEntry.parents l =>
      if l.length = 0 then prev else (l.map fieldval).sum / (l.length : α)

/-- `MeshRefiner.refinefield(field)` at a fixed grade: a new field is created
with every entry initialized to the prototype value, then each entry of the
refinement-map dictionary overwrites the value at the new id. -/
def MeshRefiner.refinefield [DivisionRing α] (dict : List (ℕ × RefMapEntry))
    (fieldval : ℕ → α) (proto : α) : ℕ → α :=
  dict.foldl
    (fun res e => Function.update res e.1 (refinefieldValue fieldval (res e.1) e.2))
    (fun _ => proto)

/-- `MeshRefiner.refineselection(sel)` at a fixed grade: the result starts as an
empty selection; for each dictionary entry, the new id is marked selected only
when the map value is a single integer id and that old id is selected
(`isint(dict[id]) && sel[g, dict[id]]`). -/
def MeshRefiner.refineselection (dict : List (ℕ × RefMapEntry))
    (sel : ℕ → Bool) : ℕ → Bool :=
  dict.foldl
    (fun res e =>
      match e.2 with
      | RefMapEntry.single o => if sel o then Function.update res e.1 true else res
      | RefMapEntry.parents _ => res)
    (fun _ => false)

/- ********************************************************************** -/
/- Helper lemmas on the refinement folds                                   -/
/- ********************************************************************** -/

/-- A new id that never appears as a dictionary key keeps its initial
field value through the `refinefield` fold. -/
lemma refinefield_foldl_not_mem [DivisionRing α] (f : ℕ → α) :
    ∀ (dict : List (ℕ × RefMapEntry)) (init : ℕ → α) (id : ℕ),
      id ∉ dict.map Prod.fst →
      dict.foldl
        (fun res e => Function.update res e.1 (refinefieldValue f (res e.1) e.2))
        init id = init id := by
  intro dict
  induction dict with
  | nil => intro init id _; rfl
  | cons a rest ih =>
      intro init id hid
      simp only [List.map_cons, List.mem_cons, not_or] at hid
      simp only [List.foldl_cons]
      rw [ih _ _ hid.2, Function.update_noteq hid.1]

/-- With duplicate-free keys, the `refinefield` fold writes each present id
exactly once; for an entry whose value does not depend on the previous field
value, the result is that entry's value. -/
lemma refinefield_foldl_mem [DivisionRing α] (f : ℕ → α) :
    ∀ (dict : List (ℕ × RefMapEntry)) (init : ℕ → α) (id : ℕ) (e : RefMapEntry),
      (dict.map Prod.fst).Nodup → (id, e) ∈ dict →
      (∀ p q : α, refinefieldValue f p e = refinefieldValue f q e) →
      dict.foldl
        (fun res ent => Function.update res ent.1 (refinefieldValue f (res ent.1) ent.2))
        init id = refinefieldValue f 0 e := by
  intro dict
  induction dict with
  | nil => intro _ _ _ _ h; cases h
  | cons a rest ih =>
      intro init id e hnd hmem hpi
      simp only [List.map_cons, List.nodup_cons] at hnd
      rcases List.mem_cons.mp hmem with heq | hrest
      · subst heq
        simp only [List.foldl_cons]
        rw [refinefield_foldl_not_mem f rest _ id hnd.1,
          Function.update_same]
        exact hpi _ _
      · simp only [List.foldl_cons]
        exact ih _ id e hnd.2 hrest hpi

/-- If the old field is constant and the initial values are that constant, the
`refinefield` fold keeps every value equal to the constant. -/
lemma refinefield_foldl_const [LinearOrderedField α] (f : ℕ → α) (c : α)
    (hf : ∀ v, f v = c) :
    ∀ (dict : List (ℕ × RefMapEntry)) (init : ℕ → α),
      (∀ id, init id = c) →
      ∀ id, dict.foldl
        (fun res ent => Function.update res ent.1 (refinefieldValue f (res ent.1) ent.2))
        init id = c := by
  intro dict
  induction dict with
  | nil => intro init hinit id; exact hinit id
  | cons a rest ih =>
      intro init hinit id
      simp only [List.foldl_cons]
      refine ih _ ?_ id
      intro j
      rcases eq_or_ne j a.1 with rfl | hne
      · rw [Function.update_same]
        cases he : a.2 with
        | single o => simp [refinefieldValue, hf]
        | parents l =>
            simp only [refinefieldValue]
            by_cases hl : l.length = 0
            · simp [hl, hinit]
            · have hmap : l.map f = List.replicate l.length c := by
                have h1 : l.map f = l.map (fun _ => c) := by
                  apply List.map_congr_left
                  intro v _
                  exact hf v
                rw [h1, List.map_const']
              have hlen : (l.length : α) ≠ 0 := Nat.cast_ne_zero.mpr hl
              simp only [hl, if_false, hmap, List.sum_replicate, nsmul_eq_mul]
              field_simp
      · rw [Function.update_noteq hne]
        exact hinit j

/-- The `refineselection` fold only ever sets entries to `true`: the result is
`true` exactly when the initial value was `true` or some dictionary entry maps
the id to a single selected parent. -/
lemma refineselection_foldl (sel : ℕ → Bool) :
    ∀ (dict : List (ℕ × RefMapEntry)) (init : ℕ → Bool) (id : ℕ),
      (dict.foldl
        (fun res e =>
          match e.2 with
          | RefMapEntry.single o => if sel o then Function.update res e.1 true else res
          | RefMapEntry.parents _ => res)
        init id = true)
      ↔ (init id = true ∨ ∃ o, (id, RefMapEntry.single o) ∈ dict ∧ sel o = true) := by
  intro dict
  induction dict with
  | nil => intro init id; simp
  | cons a rest ih =>
      intro init id
      simp only [List.foldl_cons]
      rw [ih]
      cases a with
      | mk aid ae =>
        cases ae with
        | single o =>
            by_cases hs : sel o = true
            · simp only [hs, if_true]
              by_cases hid : id = aid
              · subst hid
                simp only [Function.update_same]
                constructor
                · intro _
                  exact Or.inr ⟨o, List.mem_cons_self _ _, hs⟩
                · intro _; exact Or.inl trivial
              · rw [Function.update_noteq hid]
                constructor
                · rintro (h | ⟨o2, hmem, hsel⟩)
                  · exact Or.inl h
                  · exact Or.inr ⟨o2, List.mem_cons_of_mem _ hmem, hsel⟩
                · rintro (h | ⟨o2, hmem, hsel⟩)
                  · exact Or.inl h
                  · rcases List.mem_cons.mp hmem with heq | hmem2
                    · exfalso
                      apply hid
                      exact congrArg Prod.fst heq
                    · exact Or.inr ⟨o2, hmem2, hsel⟩
            · simp only [hs, if_false]
              constructor
              · rintro (h | ⟨o2, hmem, hsel⟩)
                · exact Or.inl h
                · exact Or.inr ⟨o2, List.mem_cons_of_mem _ hmem, hsel⟩
              · rintro (h | ⟨o2, hmem, hsel⟩)
                · exact Or.inl h
                · rcases List.mem_cons.mp hmem with heq | hmem2
                  · exfalso
                    have h1 : o2 = o := by
                      have := congrArg Prod.snd heq
                      simpa using this
                    exact hs (h1 ▸ hsel)
                  · exact Or.inr ⟨o2, hmem2, hsel⟩
        | parents l =>
            constructor
            · rintro (h | ⟨o2, hmem, hsel⟩)
              · exact Or.inl h
              · exact Or.inr ⟨o2, List.mem_cons_of_mem _ hmem, hsel⟩
            · rintro (h | ⟨o2, hmem, hsel⟩)
              · exact Or.inl h
              · rcases List.mem_cons.mp hmem with heq | hmem2
                · exact absurd (congrArg Prod.snd heq) (by simp)
                · exact Or.inr ⟨o2, hmem2, hsel⟩

/- ********************************************************************** -/
/- Claim theorems: C2, C10, C4, C5                                         -/
/- ********************************************************************** -/

/-- C2 (amended): `addconstraint` without an explicit target records the
functional's `total` on the problem's current mesh (restricted to the given
selection when one is supplied); `addlocalconstraint` without an explicit
target records the declaration default `0`, not the functional's total. -/
theorem c2_constraint_target_capture {M F S α : Type} [Zero α]
    (p : OptimizationProblem M F S α) (f : Functional M S α)
    (sel : Option S) (fld : Option F) :
    ((p.addconstraint f sel fld).2.target = f.total p.mesh sel)
    ∧ ((p.addlocalconstraintDefault f sel fld).2.target = 0) := by
  constructor
  · cases sel <;> rfl
  · rfl

/-- The concrete functional used to refute C2 as stated: its total is 5 on any
mesh and selection. -/
def c2Functional : Functional Unit Unit ℚ := ⟨fun _ _ => 5⟩

/-- C2 counterexample: adding a local constraint without an explicit target
records target 0, not the functional's total (5) on the current mesh, so the
claim's "both addconstraint and addlocalconstraint" is false for
`addlocalconstraint`. -/
theorem c2_counterexample :
    ((OptimizationProblem.mk0 () : OptimizationProblem Unit Unit Unit ℚ).addlocalconstraintDefault
        c2Functional none none).2.target
      ≠ c2Functional.total
          (OptimizationProblem.mk0 () : OptimizationProblem Unit Unit Unit ℚ).mesh none := by
  decide

/-- C10: `energywithstepsize(s)` returns the total energy the step of size `s`
(with local and global constraint reprojection) would produce, and the target
it leaves behind equals the target before the call. -/
theorem c10_energywithstepsize_frame {M α : Type} [AddCommGroup M]
    [DivisionRing α] [Module α M] (totalenergy : M → α)
    (reprojectlocal reprojectcons : M → M) (force : Option M)
    (size : α) (target : M) :
    ((Optimizer.energywithstepsize totalenergy reprojectlocal reprojectcons
        force size target).2 = target)
    ∧ ((Optimizer.energywithstepsize totalenergy reprojectlocal reprojectcons
        force size target).1
      = totalenergy (Optimizer.step reprojectlocal reprojectcons force size target)) :=
  ⟨rfl, rfl⟩

/-- C4 (amended): `refineselection(sel)` marks a new element selected if and
only if its refinement-map entry is a *single* old id and that old element is
selected; elements mapped to a list of parents (such as midpoint vertices) are
never selected, whatever the parents' status. -/
theorem c4_refineselection_amended (dict : List (ℕ × RefMapEntry))
    (sel : ℕ → Bool) (id : ℕ) :
    MeshRefiner.refineselection dict sel id = true
    ↔ ∃ o, (id, RefMapEntry.single o) ∈ dict ∧ sel o = true := by
  unfold MeshRefiner.refineselection
  rw [refineselection_foldl]
  simp

/-- C4 counterexample: with the refinement map of a split edge — old vertices 0
and 1 copied over, midpoint 2 mapped to parents [0, 1] — and *every* old vertex
selected, the copied vertices are selected but the midpoint vertex 2 is not,
contradicting "a new midpoint vertex whose two parent vertices are both
selected is selected". -/
theorem c4_counterexample :
    MeshRefiner.refineselection
        [(0, RefMapEntry.single 0), (1, RefMapEntry.single 1),
          (2, RefMapEntry.parents [0, 1])] (fun _ => true) 0 = true
    ∧ MeshRefiner.refineselection
        [(0, RefMapEntry.single 0), (1, RefMapEntry.single 1),
          (2, RefMapEntry.parents [0, 1])] (fun _ => true) 2 = false := by
  constructor <;> decide

/-- C5: `refinefield` assigns each new element the mean of the old field values
at its mapped parents, copies a single mapped parent's value unchanged, and
consequently maps a constant field to the constant field with the same
value. -/
theorem c5_refinefield_mean {α : Type} [LinearOrderedField α]
    (dict : List (ℕ × RefMapEntry)) (f : ℕ → α) (proto : α)
    (hnd : (dict.map Prod.fst).Nodup) :
    (∀ id o, (id, RefMapEntry.single o) ∈ dict →
        MeshRefiner.refinefield dict f proto id = f o)
    ∧ (∀ id l, (id, RefMapEntry.parents l) ∈ dict → l ≠ [] →
        MeshRefiner.refinefield dict f proto id = (l.map f).sum / (l.length : α))
    ∧ (∀ c, (∀ v, f v = c) → proto = c →
        ∀ id, MeshRefiner.refinefield dict f proto id = c) := by
  refine ⟨?_, ?_, ?_⟩
  · intro id o hmem
    unfold MeshRefiner.refinefield
    rw [refinefield_foldl_mem f dict _ id (RefMapEntry.single o) hnd hmem
      (by intro p q; rfl)]
    rfl
  · intro id l hmem hl
    have hlen : l.length ≠ 0 := by simpa using hl
    unfold MeshRefiner.refinefield
    rw [refinefield_foldl_mem f dict _ id (RefMapEntry.parents l) hnd hmem
      (by intro p q; simp [refinefieldValue, hlen])]
    simp [refinefieldValue, hlen]
  · intro c hf hproto id
    unfold MeshRefiner.refinefield
    exact refinefield_foldl_const f c hf dict _ (fun _ => hproto) id

/-- C5 witness: on the refinement map of a split edge with field values 2 and 6
at the parent vertices, the midpoint receives the mean 4, the copied vertex
keeps its value, and the constant field 3 refines to the constant 3. -/
theorem c5_witness :
    MeshRefiner.refinefield
        [(0, RefMapEntry.single 0), (1, RefMapEntry.single 1),
          (2, RefMapEntry.parents [0, 1])]
        (fun v => if v = 0 then (2 : ℚ) else 6) 0 2
      = (([0, 1].map (fun v => if v = 0 then (2 : ℚ) else 6)).sum / (([0, 1] : List ℕ).length : ℚ))
    ∧ MeshRefiner.refinefield
        [(0, RefMapEntry.single 0), (1, RefMapEntry.single 1),
          (2, RefMapEntry.parents [0, 1])]
        (fun v => if v = 0 then (2 : ℚ) else 6) 0 0
      = (if (0 : ℕ) = 0 then (2 : ℚ) else 6)
    ∧ MeshRefiner.refinefield [(5, RefMapEntry.parents [0, 1])]
        (fun _ => (3 : ℚ)) 3 5 = 3 :=
  ⟨(c5_refinefield_mean _ _ _ (by decide)).2.1 2 [0, 1] (by decide) (by decide),
   (c5_refinefield_mean _ _ _ (by decide)).1 0 0 (by decide),
   (c5_refinefield_mean _ _ _ (by decide)).2.2 3 (fun _ => rfl) rfl 5⟩

/- ********************************************************************** -/
/- functional_symmetrysumforces and functional_mapgradient                 -/
/- (optimize.morpho, C side of functional.c)                               -/
/- ********************************************************************** -/

/-- `functional_symmetrysumforces(mesh, frc)`: traverse the pairs `(i, j)` of
the C(0,0) symmetry connectivity in dictionary order; for each pair read the
current force columns `fi`, `fj`, and write `fi + fj` to both columns. -/
def functional_symmetrysumforces {V : Type} [AddCommMonoid V]
    (pairs : List (ℕ × ℕ)) (frc : ℕ → V) : ℕ → V :=
  pairs.foldl
    (fun f p =>
      let fsum := f p.1 + f p.2
      Function.update (Function.update f p.1 fsum) p.2 fsum)
    frc

/-- The element loop of `functional_mapgradient`: each element's gradient
callback accumulates into the force matrix and may fail, aborting the map. -/
def mapgradientLoop {V : Type} (gradfn : ℕ → (ℕ → V) → Option (ℕ → V)) :
    List ℕ → (ℕ → V) → Option (ℕ → V)
  | [], frc => some frc
  | i :: rest, frc =>
      match gradfn i frc with
      | none => none
      | some f2 => mapgradientLoop gradfn rest f2

/-- `functional_mapgradient`: allocate a zero force matrix, fold every
element's gradient contribution into it, and if the functional declares
`SYMMETRY_ADD` finish with `functional_symmetrysumforces`. -/
def functional_mapgradient {V : Type} [AddCommMonoid V] (sym : Bool)
    (pairs : List (ℕ × ℕ)) (gradfn : ℕ → (ℕ → V) → Option (ℕ → V))
    (order : List ℕ) : Option (ℕ → V) :=
  match mapgradientLoop gradfn order (fun _ => 0) with
  | none => none
  | some frc =>
      some (if sym then functional_symmetrysumforces pairs frc else frc)

/-- A vertex mentioned by no symmetry pair keeps its accumulated force. -/
lemma symmetrysumforces_not_mem {V : Type} [AddCommMonoid V] :
    ∀ (pairs : List (ℕ × ℕ)) (frc : ℕ → V) (v : ℕ),
      (∀ p ∈ pairs, v ≠ p.1 ∧ v ≠ p.2) →
      functional_symmetrysumforces pairs frc v = frc v := by
  intro pairs
  induction pairs with
  | nil => intro frc v _; rfl
  | cons a rest ih =>
      intro frc v hv
      have ha := hv a (List.mem_cons_self _ _)
      have hrest : ∀ p ∈ rest, v ≠ p.1 ∧ v ≠ p.2 :=
        fun p hp => hv p (List.mem_cons_of_mem _ hp)
      unfold functional_symmetrysumforces at ih ⊢
      simp only [List.foldl_cons]
      rw [ih _ v hrest, Function.update_noteq ha.2, Function.update_noteq ha.1]

/-- Unfolding one pair of the symmetry traversal. -/
lemma symmetrysumforces_cons {V : Type} [AddCommMonoid V] (a : ℕ × ℕ)
    (rest : List (ℕ × ℕ)) (frc : ℕ → V) :
    functional_symmetrysumforces (a :: rest) frc
      = functional_symmetrysumforces rest
          (Function.update (Function.update frc a.1 (frc a.1 + frc a.2)) a.2
            (frc a.1 + frc a.2)) := rfl

/-- When the symmetry pairs are vertex-disjoint, each pair's two columns both
end up holding the sum of the two accumulated forces. -/
lemma symmetrysumforces_disjoint {V : Type} [AddCommMonoid V] :
    ∀ (pairs : List (ℕ × ℕ)) (frc : ℕ → V),
      (pairs.flatMap fun p => [p.1, p.2]).Nodup →
      ∀ i j, (i, j) ∈ pairs →
        functional_symmetrysumforces pairs frc i = frc i + frc j
        ∧ functional_symmetrysumforces pairs frc j = frc i + frc j := by
  intro pairs
  induction pairs with
  | nil => intro _ _ _ _ h; cases h
  | cons a rest ih =>
      obtain ⟨a1, a2⟩ := a
      intro frc hnd i j hmem
      rw [List.flatMap_cons, List.nodup_append] at hnd
      obtain ⟨hab, hrest, hdisj⟩ := hnd
      have hane : a1 ≠ a2 := by
        simpa [List.nodup_cons] using hab
      rw [symmetrysumforces_cons]
      dsimp only
      rcases List.mem_cons.mp hmem with heq | hmemr
      · injection heq with h1 h2
        subst h1; subst h2
        have hnoti : ∀ p ∈ rest, i ≠ p.1 ∧ i ≠ p.2 := by
          intro p hp
          refine ⟨fun hc => ?_, fun hc => ?_⟩
          · exact hdisj (show i ∈ [i, j] by simp)
              (List.mem_flatMap.mpr ⟨p, hp, by simp [hc]⟩)
          · exact hdisj (show i ∈ [i, j] by simp)
              (List.mem_flatMap.mpr ⟨p, hp, by simp [hc]⟩)
        have hnotj : ∀ p ∈ rest, j ≠ p.1 ∧ j ≠ p.2 := by
          intro p hp
          refine ⟨fun hc => ?_, fun hc => ?_⟩
          · exact hdisj (show j ∈ [i, j] by simp)
              (List.mem_flatMap.mpr ⟨p, hp, by simp [hc]⟩)
          · exact hdisj (show j ∈ [i, j] by simp)
              (List.mem_flatMap.mpr ⟨p, hp, by simp [hc]⟩)
        constructor
        · rw [symmetrysumforces_not_mem rest _ i hnoti,
            Function.update_noteq hane, Function.update_same]
        · rw [symmetrysumforces_not_mem rest _ j hnotj, Function.update_same]
      · have hi : i ∈ rest.flatMap fun p => [p.1, p.2] :=
          List.mem_flatMap.mpr ⟨(i, j), hmemr, by simp⟩
        have hj : j ∈ rest.flatMap fun p => [p.1, p.2] :=
          List.mem_flatMap.mpr ⟨(i, j), hmemr, by simp⟩
        have hia1 : i ≠ a1 := fun hc => hdisj (by simp [hc]) hi
        have hia2 : i ≠ a2 := fun hc => hdisj (by simp [hc]) hi
        have hja1 : j ≠ a1 := fun hc => hdisj (by simp [hc]) hj
        have hja2 : j ≠ a2 := fun hc => hdisj (by simp [hc]) hj
        have hres := ih
          (Function.update (Function.update frc a1 (frc a1 + frc a2)) a2
            (frc a1 + frc a2)) hrest i j hmemr
        rw [Function.update_noteq hia2, Function.update_noteq hia1,
          Function.update_noteq hja2, Function.update_noteq hja1] at hres
        exact hres

/-- C3 (amended): if gradient assembly succeeds with accumulated force matrix
`frc` and the identified pairs of C(0,0) are vertex-disjoint (no vertex occurs
in two pairs), then under `SYMMETRY_ADD` the returned force matrix holds, at
both columns of each pair `(i, j)`, the sum of the pair's two accumulated
forces. When pairs share a vertex, later pairs reread already-updated columns
and the property fails (see the counterexample). -/
theorem c3_symmetry_add_amended {V : Type} [AddCommMonoid V]
    (pairs : List (ℕ × ℕ)) (gradfn : ℕ → (ℕ → V) → Option (ℕ → V))
    (order : List ℕ) (frc : ℕ → V)
    (hloop : mapgradientLoop gradfn order (fun _ => 0) = some frc)
    (hdisj : (pairs.flatMap fun p => [p.1, p.2]).Nodup)
    (i j : ℕ) (hmem : (i, j) ∈ pairs) :
    ∃ g, functional_mapgradient true pairs gradfn order = some g
      ∧ g i = frc i + frc j ∧ g j = frc i + frc j := by
  refine ⟨functional_symmetrysumforces pairs frc, ?_, ?_, ?_⟩
  · simp [functional_mapgradient, hloop]
  · exact (symmetrysumforces_disjoint pairs frc hdisj i j hmem).1
  · exact (symmetrysumforces_disjoint pairs frc hdisj i j hmem).2

/-- C3 witness: a single identified pair (0, 1) with unit contributions at
vertices 0 and 1; both returned columns equal the pair sum. -/
theorem c3_witness :
    ∃ g, functional_mapgradient true [(0, 1)]
        (fun i f => some (Function.update f i (1 : ℤ))) [0, 1] = some g
      ∧ g 0 = Function.update (Function.update (fun _ => (0 : ℤ)) 0 1) 1 1 0
            + Function.update (Function.update (fun _ => (0 : ℤ)) 0 1) 1 1 1
      ∧ g 1 = Function.update (Function.update (fun _ => (0 : ℤ)) 0 1) 1 1 0
            + Function.update (Function.update (fun _ => (0 : ℤ)) 0 1) 1 1 1 :=
  c3_symmetry_add_amended [(0, 1)] (fun i f => some (Function.update f i (1 : ℤ)))
    [0, 1] _ rfl (by decide) 0 1 (by decide)

/-- The gradient callback used to refute C3 as stated: element `i` writes the
force `2 ^ i` at vertex `i`, so the assembled forces are 1, 2, 4. -/
def c3gradfn : ℕ → (ℕ → ℤ) → Option (ℕ → ℤ) :=
  fun i f => some (Function.update f i (2 ^ i))

/-- C3 counterexample: with C(0,0) pairs (0, 1) and (0, 2) sharing vertex 0 and
accumulated forces 1, 2, 4, the returned columns of the pair (0, 1) are 7 and 3:
they are not equal, and neither holds the pair sum 1 + 2. -/
theorem c3_counterexample :
    ((functional_mapgradient true [(0, 1), (0, 2)] c3gradfn [0, 1, 2]).map
        (fun g => g 0) = some 7)
    ∧ ((functional_mapgradient true [(0, 1), (0, 2)] c3gradfn [0, 1, 2]).map
        (fun g => g 1) = some 3)
    ∧ ((functional_mapgradient true [(0, 1), (0, 2)] c3gradfn [0, 1, 2]).map
        (fun g => g 0)
      ≠ (functional_mapgradient true [(0, 1), (0, 2)] c3gradfn [0, 1, 2]).map
        (fun g => g 1)) := by
  refine ⟨by decide, by decide, by decide⟩

/- ********************************************************************** -/
/- functional_numericalgradient (optimize.morpho, C side of functional.c)  -/
/- ********************************************************************** -/

/-- The coordinate loop of `functional_numericalgradient`: for each
(coordinate, vertex) slot, perturb by ±eps, rerun the integrand, restore, and
accumulate the central difference into the force matrix. On an integrand
failure the function returns immediately, leaving the mesh as it stands. The
result carries both the optional force matrix and the final mesh. -/
def functional_numericalgradientAux {α : Type} [LinearOrderedField α]
    (integrand : ((ℕ × ℕ) → α) → Option α) (eps : α) :
    List (ℕ × ℕ) → ((ℕ × ℕ) → α) → ((ℕ × ℕ) → α) →
      Option ((ℕ × ℕ) → α) × ((ℕ × ℕ) → α)
  | [], mesh, frc => (some frc, mesh)
  | kv :: rest, mesh, frc =>
      let x0 := mesh kv
      let mesh1 := Function.update mesh kv (x0 + eps)
      match integrand mesh1 with
      | none => (none, mesh1)
      | some fp =>
          let mesh2 := Function.update mesh1 kv (x0 - eps)
          match integrand mesh2 with
          | none => (none, mesh2)
          | some fm =>
              let mesh3 := Function.update mesh2 kv x0
              let frc2 := Function.update frc kv (frc kv + (fp - fm) / (2 * eps))
              functional_numericalgradientAux integrand eps rest mesh3 frc2

/-- `functional_numericalgradient`: loop over the element's vertices and over
the mesh dimensions with finite-difference step eps = 1e-10. -/
def functional_numericalgradient {α : Type} [LinearOrderedField α] (dim : ℕ)
    (integrand : ((ℕ × ℕ) → α) → Option α) (vid : List ℕ)
    (mesh frc : (ℕ × ℕ) → α) : Option ((ℕ × ℕ) → α) × ((ℕ × ℕ) → α) :=
  functional_numericalgradientAux integrand (1 / 10 ^ 10)
    (vid.flatMap fun vj => (List.range dim).map fun k => (k, vj)) mesh frc

/-- A successful pass of the perturbation loop restores the mesh exactly. -/
lemma numericalgradientAux_restore {α : Type} [LinearOrderedField α]
    (integrand : ((ℕ × ℕ) → α) → Option α) (eps : α) :
    ∀ (kvs : List (ℕ × ℕ)) (mesh frc : (ℕ × ℕ) → α),
      (functional_numericalgradientAux integrand eps kvs mesh frc).1.isSome = true →
      (functional_numericalgradientAux integrand eps kvs mesh frc).2 = mesh := by
  intro kvs
  induction kvs with
  | nil => intro mesh frc _; rfl
  | cons kv rest ih =>
      intro mesh frc hs
      unfold functional_numericalgradientAux at hs ⊢
      cases h1 : integrand (Function.update mesh kv (mesh kv + eps)) with
      | none => simp only [h1] at hs; simp at hs
      | some fp =>
          simp only [h1] at hs ⊢
          cases h2 : integrand (Function.update
              (Function.update mesh kv (mesh kv + eps)) kv (mesh kv - eps)) with
          | none => simp only [h2] at hs; simp at hs
          | some fm =>
              simp only [h2] at hs ⊢
              rw [ih _ _ hs]
              rw [Function.update_idem, Function.update_idem,
                Function.update_eq_self]

/-- C9 (amended): when every integrand evaluation succeeds, the numerical
gradient restores every vertex coordinate to its pre-call value (central
differences with step eps = 1e-10); when an integrand evaluation fails, the
function returns immediately and the currently perturbed coordinate remains at
its perturbed value (see the counterexample). -/
theorem c9_numericalgradient_restore {α : Type} [LinearOrderedField α]
    (dim : ℕ) (integrand : ((ℕ × ℕ) → α) → Option α) (vid : List ℕ)
    (mesh frc : (ℕ × ℕ) → α)
    (hsucc : (functional_numericalgradient dim integrand vid mesh frc).1.isSome = true) :
    (functional_numericalgradient dim integrand vid mesh frc).2 = mesh :=
  numericalgradientAux_restore integrand (1 / 10 ^ 10)
    (vid.flatMap fun vj => (List.range dim).map fun k => (k, vj)) mesh frc hsucc

/-- C9 witness: a one-dimensional one-vertex mesh with an always-successful
integrand; the call succeeds and the mesh is restored. -/
theorem c9_witness :
    ((functional_numericalgradient 1 (fun _ => some (0 : ℚ)) [0]
        (fun _ => 0) (fun _ => 0)).1.isSome = true)
    ∧ (functional_numericalgradient 1 (fun _ => some (0 : ℚ)) [0]
        (fun _ => 0) (fun _ => 0)).2 = (fun _ => 0) :=
  ⟨rfl, c9_numericalgradient_restore 1 (fun _ => some (0 : ℚ)) [0]
    (fun _ => 0) (fun _ => 0) rfl⟩

/-- The integrand used to refute C9 as stated: it fails as soon as the vertex
coordinate is moved off 0 — as a degenerate-geometry integrand failure would. -/
def c9integrand : ((ℕ × ℕ) → ℚ) → Option ℚ :=
  fun m => if m (0, 0) = 0 then some 1 else none

/-- C9 counterexample: starting from vertex coordinate 0, the first +eps
perturbation makes the integrand fail; the call returns failure with the
coordinate left at 1e-10, not its pre-call value 0 — refuting "by the time the
call returns (whether it succeeds or the integrand fails), every vertex
coordinate equals its pre-call value". -/
theorem c9_counterexample :
    ((functional_numericalgradient 1 c9integrand [0]
        (fun _ => (0 : ℚ)) (fun _ => 0)).1.isNone = true)
    ∧ ((functional_numericalgradient 1 c9integrand [0]
        (fun _ => (0 : ℚ)) (fun _ => 0)).2 (0, 0) ≠ 0) := by
  have hl : ([0].flatMap fun vj => (List.range 1).map fun k => ((k : ℕ), vj))
      = [((0 : ℕ), (0 : ℕ))] := by decide
  have h1 : c9integrand (Function.update (fun _ => (0 : ℚ)) ((0 : ℕ), (0 : ℕ))
      ((fun _ => (0 : ℚ)) ((0 : ℕ), (0 : ℕ)) + 1 / 10 ^ 10)) = none := by
    unfold c9integrand
    rw [Function.update_same]
    norm_num
  unfold functional_numericalgradient
  rw [hl]
  unfold functional_numericalgradientAux
  simp only [h1]
  refine ⟨rfl, ?_⟩
  rw [Function.update_same]
  norm_num

/- ********************************************************************** -/
/- Sparse matrices: DOK storage, DOK to CCS conversion, setelement         -/
/- (geometry/selection.h: sparsedok_insert, sparseccs_doktoccs,            -/
/-  sparse_setelement)                                                     -/
/- ********************************************************************** -/

/-- The dictionary-of-keys storage: the entry list stands for the stored
(key, value) dictionary in its traversal order, together with the tracked
matrix dimensions. -/
structure Sparsedok (V : Type) where
  entries : List ((ℕ × ℕ) × V)
  nrows : ℕ
  ncols : ℕ

/-- `sparsedok_get`: dictionary lookup of key (i, j). -/
def sparsedok_get {V : Type} (entries : List ((ℕ × ℕ) × V)) (i j : ℕ) :
    Option V :=
  (entries.find? fun e => decide (e.1 = (i, j))).map Prod.snd

/-- `sparsedok_insert`: update the value when the key exists; otherwise add the
key and grow the tracked dimensions to cover it
(`if (nrows==0 || i>=nrows) nrows=i+1`, and likewise for columns). -/
def sparsedok_insert {V : Type} (dok : Sparsedok V) (i j : ℕ) (val : V) :
    Sparsedok V :=
  if (i, j) ∈ dok.entries.map Prod.fst then
    { dok with
      entries := dok.entries.map fun e => if e.1 = (i, j) then ((i, j), val) else e }
  else
    { entries := ((i, j), val) :: dok.entries,
      nrows := if dok.nrows = 0 ∨ dok.nrows ≤ i then i + 1 else dok.nrows,
      ncols := if dok.ncols = 0 ∨ dok.ncols ≤ j then j + 1 else dok.ncols }

/-- Row indices of one CCS column as built by `sparseccs_doktoccs`: the keys of
column j are placed in the column's region in dictionary-traversal order and
then sorted ascending (`qsort` with an ascending integer comparator). -/
def sparseccs_colrows {V : Type} (dok : Sparsedok V) (j : ℕ) : List ℕ :=
  List.insertionSort (· ≤ ·)
    ((dok.entries.filter fun e => decide (e.1.2 = j)).map fun e => e.1.1)

/-- The CCS form: per column, the sorted row indices and the copied values
(the flat `rix` and `values` arrays split at the `cptr` boundaries). -/
structure Sparseccs (V : Type) where
  ncols : ℕ
  cols : List (List ℕ)
  vals : List (List V)

/-- `sparseccs_doktoccs` with `copyvals`: count and place every DOK key into
its column, sort each column ascending, then copy each value by a
`sparsedok_get` lookup at the sorted position. -/
def sparseccs_doktoccs {V : Type} [Zero V] (dok : Sparsedok V) : Sparseccs V :=
  { ncols := dok.ncols,
    cols := (List.range dok.ncols).map fun j => sparseccs_colrows dok j,
    vals := (List.range dok.ncols).map fun j =>
      (sparseccs_colrows dok j).map fun r => (sparsedok_get dok.entries r j).getD 0 }

/-- An `objectsparse`: the editable DOK form plus the optional derived CCS. -/
structure Objectsparse (V : Type) where
  dok : Sparsedok V
  ccs : Option (Sparseccs V)

/-- `sparse_setelement`: insert into the DOK form and remove (invalidate) the
CCS format. -/
def sparse_setelement {V : Type} (s : Objectsparse V) (i j : ℕ) (val : V) :
    Objectsparse V :=
  { dok := sparsedok_insert s.dok i j val, ccs := none }

/-- Dictionary lookup characterization under duplicate-free keys. -/
lemma sparsedok_get_eq_some {V : Type} (entries : List ((ℕ × ℕ) × V))
    (hnd : (entries.map Prod.fst).Nodup) (i j : ℕ) (v : V) :
    sparsedok_get entries i j = some v ↔ ((i, j), v) ∈ entries := by
  constructor
  · intro h
    unfold sparsedok_get at h
    cases hf : entries.find? fun e => decide (e.1 = (i, j)) with
    | none => rw [hf] at h; cases h
    | some e =>
        rw [hf] at h
        have he1 : e.1 = (i, j) := by
          have := List.find?_some hf
          simpa using this
        have he2 : e ∈ entries := List.mem_of_find?_eq_some hf
        have hv : e.2 = v := by simpa using h
        have : e = ((i, j), v) := by
          rw [Prod.ext_iff]
          exact ⟨he1, hv⟩
        rw [this] at he2
        exact he2
  · intro hmem
    unfold sparsedok_get
    cases hf : entries.find? fun e => decide (e.1 = (i, j)) with
    | none =>
        exfalso
        have := List.find?_eq_none.mp hf _ hmem
        simp at this
    | some e =>
        have he1 : e.1 = (i, j) := by
          have := List.find?_some hf
          simpa using this
        have he2 : e ∈ entries := List.mem_of_find?_eq_some hf
        have : e = ((i, j), v) := by
          apply List.inj_on_of_nodup_map hnd he2 hmem
          simpa using he1
        rw [this]
        rfl

/-- Dictionary lookups agree across any reordering of a duplicate-free
dictionary. -/
lemma sparsedok_get_perm {V : Type} (l1 l2 : List ((ℕ × ℕ) × V))
    (hperm : l1.Perm l2) (hnd : (l1.map Prod.fst).Nodup) (i j : ℕ) :
    sparsedok_get l1 i j = sparsedok_get l2 i j := by
  have hnd2 : (l2.map Prod.fst).Nodup := ((hperm.map Prod.fst).nodup_iff).mp hnd
  cases h1 : sparsedok_get l1 i j with
  | some v =>
      have := (sparsedok_get_eq_some l1 hnd i j v).mp h1
      exact ((sparsedok_get_eq_some l2 hnd2 i j v).mpr (hperm.mem_iff.mp this)).symm
  | none =>
      cases h2 : sparsedok_get l2 i j with
      | none => rfl
      | some v =>
          have := (sparsedok_get_eq_some l2 hnd2 i j v).mp h2
          have := (sparsedok_get_eq_some l1 hnd i j v).mpr (hperm.mem_iff.mpr this)
          rw [this] at h1
          cases h1

/-- Each CCS column is the ascending sort of that column's keys, so it depends
only on the key set, not on the dictionary order. -/
lemma sparseccs_colrows_perm {V : Type} (d1 d2 : Sparsedok V)
    (hperm : d1.entries.Perm d2.entries) (j : ℕ) :
    sparseccs_colrows d1 j = sparseccs_colrows d2 j := by
  unfold sparseccs_colrows
  exact @List.eq_of_perm_of_sorted ℕ (· ≤ ·) _ _ _
    ((List.perm_insertionSort _ _).trans
      (((hperm.filter _).map _).trans (List.perm_insertionSort _ _).symm))
    (List.sorted_insertionSort _ _) (List.sorted_insertionSort _ _)

/-- Membership in a CCS column is exactly key membership in the DOK. -/
lemma sparseccs_colrows_mem {V : Type} (dok : Sparsedok V) (r j : ℕ) :
    r ∈ sparseccs_colrows dok j ↔ (r, j) ∈ dok.entries.map Prod.fst := by
  unfold sparseccs_colrows
  rw [(List.perm_insertionSort _ _).mem_iff]
  simp only [List.mem_map, List.mem_filter, decide_eq_true_eq]
  constructor
  · rintro ⟨e, ⟨hmem, hcol⟩, hrow⟩
    exact ⟨e, hmem, by rw [Prod.ext_iff]; exact ⟨hrow, hcol⟩⟩
  · rintro ⟨e, hmem, hkey⟩
    exact ⟨e, ⟨hmem, by rw [hkey]⟩, by rw [hkey]⟩

/-- C8: DOK to CCS conversion is deterministic — two dictionaries holding the
same entries in any orders convert to identical CCS structures — with the row
indices of every column sorted ascending, and the (row, column) entries of the
CCS are exactly the keys stored in the DOK; moreover `setelement` on the DOK
form removes any derived CCS form. -/
theorem c8_doktoccs_spec {V : Type} [Zero V] (d1 d2 : Sparsedok V)
    (hperm : d1.entries.Perm d2.entries)
    (hnd : (d1.entries.map Prod.fst).Nodup)
    (hcols : d1.ncols = d2.ncols)
    (hwf : ∀ e ∈ d1.entries, e.1.2 < d1.ncols) :
    (sparseccs_doktoccs d1 = sparseccs_doktoccs d2)
    ∧ (∀ c ∈ (sparseccs_doktoccs d1).cols, c.Sorted (· ≤ ·))
    ∧ (∀ r c : ℕ, (r, c) ∈ d1.entries.map Prod.fst
        ↔ c < (sparseccs_doktoccs d1).ncols
          ∧ r ∈ (sparseccs_doktoccs d1).cols.getD c [])
    ∧ (∀ (s : Objectsparse V) (i j : ℕ) (v : V),
        (sparse_setelement s i j v).ccs = none) := by
  have hgetD : ∀ c : ℕ, c < d1.ncols →
      (sparseccs_doktoccs d1).cols.getD c [] = sparseccs_colrows d1 c := by
    intro c hc
    unfold sparseccs_doktoccs
    simp only [List.getD_eq_getElem?_getD]
    rw [List.getElem?_map, List.getElem?_range hc]
    rfl
  refine ⟨?_, ?_, ?_, ?_⟩
  · unfold sparseccs_doktoccs
    have h1 : ∀ j, sparseccs_colrows d1 j = sparseccs_colrows d2 j :=
      sparseccs_colrows_perm d1 d2 hperm
    have h2 : ∀ r j, sparsedok_get d1.entries r j = sparsedok_get d2.entries r j :=
      sparsedok_get_perm d1.entries d2.entries hperm hnd
    simp only [hcols]
    refine congrArg₂ (fun a b => Sparseccs.mk d2.ncols a b) ?_ ?_
    · exact List.map_congr_left fun j _ => h1 j
    · refine List.map_congr_left fun j _ => ?_
      rw [h1 j]
      exact List.map_congr_left fun r _ => by rw [h2 r j]
  · intro c hc
    unfold sparseccs_doktoccs at hc
    simp only [List.mem_map, List.mem_range] at hc
    obtain ⟨j, _, rfl⟩ := hc
    exact List.sorted_insertionSort _ _
  · intro r c
    constructor
    · intro hmem
      have hc : c < d1.ncols := by
        rcases List.mem_map.mp hmem with ⟨e, he, hkey⟩
        have := hwf e he
        rw [hkey] at this
        exact this
      refine ⟨hc, ?_⟩
      rw [hgetD c hc]
      exact (sparseccs_colrows_mem d1 r c).mpr hmem
    · rintro ⟨hc, hr⟩
      rw [hgetD c hc] at hr
      exact (sparseccs_colrows_mem d1 r c).mp hr
  · intro s i j v
    rfl

/-- C8 witness: a concrete three-entry dictionary and a reordering of it
convert to the same CCS, with sorted columns matching the key set, and
`setelement` drops the CCS form. -/
theorem c8_witness :
    (sparseccs_doktoccs (Sparsedok.mk [(((2 : ℕ), (1 : ℕ)), (5 : ℤ)), (((0 : ℕ), (1 : ℕ)), 3), (((1 : ℕ), (0 : ℕ)), 7)] 3 2)
      = sparseccs_doktoccs (Sparsedok.mk [(((1 : ℕ), (0 : ℕ)), (7 : ℤ)), (((0 : ℕ), (1 : ℕ)), 3), (((2 : ℕ), (1 : ℕ)), 5)] 3 2))
    ∧ (((0 : ℕ), (1 : ℕ)) ∈ [(((2 : ℕ), (1 : ℕ)), (5 : ℤ)), (((0 : ℕ), (1 : ℕ)), 3), (((1 : ℕ), (0 : ℕ)), 7)].map Prod.fst
        ↔ 1 < (sparseccs_doktoccs (Sparsedok.mk [(((2 : ℕ), (1 : ℕ)), (5 : ℤ)), (((0 : ℕ), (1 : ℕ)), 3), (((1 : ℕ), (0 : ℕ)), 7)] 3 2)).ncols
          ∧ 0 ∈ (sparseccs_doktoccs (Sparsedok.mk [(((2 : ℕ), (1 : ℕ)), (5 : ℤ)), (((0 : ℕ), (1 : ℕ)), 3), (((1 : ℕ), (0 : ℕ)), 7)] 3 2)).cols.getD 1 []) := by
  have h := c8_doktoccs_spec
    (Sparsedok.mk [(((2 : ℕ), (1 : ℕ)), (5 : ℤ)), (((0 : ℕ), (1 : ℕ)), 3), (((1 : ℕ), (0 : ℕ)), 7)] 3 2)
    (Sparsedok.mk [(((1 : ℕ), (0 : ℕ)), (7 : ℤ)), (((0 : ℕ), (1 : ℕ)), 3), (((2 : ℕ), (1 : ℕ)), 5)] 3 2)
    (by decide) (by decide) rfl (by decide)
  exact ⟨h.1, h.2.2.1 0 1⟩

/- ********************************************************************** -/
/- functional_sumintegrand and functional_mapintegrand                     -/
/- (optimize.morpho, C side of functional.c)                               -/
/- ********************************************************************** -/

/-- `functional_symmetryimagelist(mesh, g, sort)`: collect the image (column)
ids of the stored C(g,g) entries and, when requested, sort them ascending. -/
def functional_symmetryimagelist (pairs : List (ℕ × ℕ)) (sort : Bool) :
    List ℕ :=
  if sort then List.insertionSort (· ≤ ·) (pairs.map Prod.snd)
  else pairs.map Prod.snd

/-- The element ids traversed: the selection's id set when one is given,
otherwise `0, …, n-1`. -/
def elementOrder (n : ℕ) (sel : Option (List ℕ)) : List ℕ :=
  match sel with
  | some ids => ids
  | none => List.range n

/-- One Kahan summation step:
`y = result - c; t = sum + y; c = (t - sum) - y; sum = t`. -/
def kahanStep {α : Type} [CommRing α] (s c r : α) : α × α :=
  let y := r - c
  let t := s + y
  (t, (t - s) - y)

/-- The summation loop of `functional_sumintegrand`, carrying the pointer
`sindx` into the sorted image-id list: an element equal to the current image
pointer is skipped (advancing the pointer); otherwise the integrand runs and
is Kahan-accumulated, any failure aborting the whole sum. -/
def sumintegrandLoop {α : Type} [CommRing α] (integrand : ℕ → Option α)
    (imageids : List ℕ) : List ℕ → ℕ → α → α → Option (α × α)
  | [], _, s, c => some (s, c)
  | i :: rest, sindx, s, c =>
      if imageids[sindx]? = some i then
        sumintegrandLoop integrand imageids rest (sindx + 1) s c
      else
        match integrand i with
        | none => none
        | some r =>
            sumintegrandLoop integrand imageids rest sindx
              (kahanStep s c r).1 (kahanStep s c r).2

/-- `functional_sumintegrand`: Kahan-sum the integrand over the traversed
elements, skipping elements matched by the sorted image-id pointer. -/
def functional_sumintegrand {α : Type} [CommRing α] (n : ℕ)
    (integrand : ℕ → Option α) (pairs : List (ℕ × ℕ))
    (sel : Option (List ℕ)) : Option α :=
  (sumintegrandLoop integrand (functional_symmetryimagelist pairs true)
      (elementOrder n sel) 0 0 0).map Prod.fst

/-- The matrix loop of `functional_mapintegrand`: same traversal and skip
logic, writing each computed integrand into the corresponding entry of the
zero-initialized 1×n output matrix. -/
def mapintegrandLoop {α : Type} (integrand : ℕ → Option α)
    (imageids : List ℕ) : List ℕ → ℕ → (ℕ → α) → Option (ℕ → α)
  | [], _, m => some m
  | i :: rest, sindx, m =>
      if imageids[sindx]? = some i then
        mapintegrandLoop integrand imageids rest (sindx + 1) m
      else
        match integrand i with
        | none => none
        | some r =>
            mapintegrandLoop integrand imageids rest sindx (Function.update m i r)

/-- `functional_mapintegrand`: the row matrix of integrand values over the
traversed elements, with unvisited entries left at 0. -/
def functional_mapintegrand {α : Type} [CommRing α] (n : ℕ)
    (integrand : ℕ → Option α) (pairs : List (ℕ × ℕ))
    (sel : Option (List ℕ)) : Option (ℕ → α) :=
  mapintegrandLoop integrand (functional_symmetryimagelist pairs true)
    (elementOrder n sel) 0 (fun _ => 0)

/-- Specification device: the ids actually visited (not skipped) by the
shared traversal of `sumintegrandLoop` and `mapintegrandLoop`. -/
def visitLoop (imageids : List ℕ) : List ℕ → ℕ → List ℕ
  | [], _ => []
  | i :: rest, sindx =>
      if imageids[sindx]? = some i then visitLoop imageids rest (sindx + 1)
      else i :: visitLoop imageids rest sindx

/-- Specification device: the integrand values at the visited ids, `none` when
some visited integrand fails. -/
def visitVals {α : Type} (integrand : ℕ → Option α) (imageids : List ℕ) :
    List ℕ → ℕ → Option (List α)
  | [], _ => some []
  | i :: rest, sindx =>
      if imageids[sindx]? = some i then visitVals integrand imageids rest (sindx + 1)
      else
        match integrand i with
        | none => none
        | some r => (visitVals integrand imageids rest sindx).map fun l => r :: l

/-- Specification device: successive pointwise writes of values at ids. -/
def writeList {α : Type} (m : ℕ → α) : List ℕ → List α → ℕ → α
  | i :: is2, r :: rs => writeList (Function.update m i r) is2 rs
  | _, _ => m

/-- Over exact arithmetic the Kahan compensation stays zero. -/
lemma kahanStep_zero {α : Type} [CommRing α] (s r : α) :
    kahanStep s 0 r = (s + r, 0) := by
  unfold kahanStep
  rw [Prod.ext_iff]
  constructor <;> simp

/-- The summation loop computes the plain sum of the visited values (with zero
compensation), failing exactly when some visited integrand fails. -/
lemma sumintegrandLoop_eq {α : Type} [CommRing α] (integrand : ℕ → Option α)
    (imageids : List ℕ) :
    ∀ (order : List ℕ) (sindx : ℕ) (s : α),
      sumintegrandLoop integrand imageids order sindx s 0
        = (visitVals integrand imageids order sindx).map fun l => (s + l.sum, 0) := by
  intro order
  induction order with
  | nil => intro sindx s; simp [sumintegrandLoop, visitVals]
  | cons i rest ih =>
      intro sindx s
      by_cases hc : imageids[sindx]? = some i
      · simp only [sumintegrandLoop, visitVals, if_pos hc]
        exact ih (sindx + 1) s
      · simp only [sumintegrandLoop, visitVals, if_neg hc]
        cases hi : integrand i with
        | none => rfl
        | some r =>
            dsimp only
            rw [kahanStep_zero]
            dsimp only
            rw [ih sindx (s + r)]
            cases hv : visitVals integrand imageids rest sindx with
            | none => rfl
            | some l =>
                simp only [Option.map_some']
                refine congrArg some ?_
                rw [Prod.ext_iff]
                constructor
                · simp only [List.sum_cons]; ring
                · rfl

/-- The matrix loop writes exactly the visited values at the visited ids,
failing exactly when some visited integrand fails. -/
lemma mapintegrandLoop_eq {α : Type} (integrand : ℕ → Option α)
    (imageids : List ℕ) :
    ∀ (order : List ℕ) (sindx : ℕ) (m : ℕ → α),
      mapintegrandLoop integrand imageids order sindx m
        = (visitVals integrand imageids order sindx).map fun l =>
            writeList m (visitLoop imageids order sindx) l := by
  intro order
  induction order with
  | nil => intro sindx m; simp [mapintegrandLoop, visitVals, visitLoop, writeList]
  | cons i rest ih =>
      intro sindx m
      by_cases hc : imageids[sindx]? = some i
      · simp only [mapintegrandLoop, visitVals, visitLoop, if_pos hc]
        exact ih (sindx + 1) m
      · simp only [mapintegrandLoop, visitVals, visitLoop, if_neg hc]
        cases hi : integrand i with
        | none => rfl
        | some r =>
            dsimp only
            rw [ih sindx (Function.update m i r)]
            cases hv : visitVals integrand imageids rest sindx with
            | none => rfl
            | some l => rfl

/-- The visited values list is as long as the visited id list. -/
lemma visitVals_length {α : Type} (integrand : ℕ → Option α)
    (imageids : List ℕ) :
    ∀ (order : List ℕ) (sindx : ℕ) (l : List α),
      visitVals integrand imageids order sindx = some l →
      (visitLoop imageids order sindx).length = l.length := by
  intro order
  induction order with
  | nil =>
      intro sindx l h
      simp only [visitVals] at h
      cases h
      rfl
  | cons i rest ih =>
      intro sindx l h
      by_cases hc : imageids[sindx]? = some i
      · simp only [visitVals, if_pos hc] at h
        simp only [visitLoop, if_pos hc]
        exact ih (sindx + 1) l h
      · simp only [visitVals, if_neg hc] at h
        simp only [visitLoop, if_neg hc]
        cases hi : integrand i with
        | none => rw [hi] at h; cases h
        | some r =>
            rw [hi] at h
            cases hv : visitVals integrand imageids rest sindx with
            | none => rw [hv] at h; cases h
            | some l2 =>
                rw [hv] at h
                simp only [Option.map_some] at h
                cases h
                simp only [List.length_cons]
                rw [ih sindx l2 hv]

/-- The visited ids form a sublist of the traversal order. -/
lemma visitLoop_sublist (imageids : List ℕ) :
    ∀ (order : List ℕ) (sindx : ℕ),
      (visitLoop imageids order sindx).Sublist order := by
  intro order
  induction order with
  | nil => intro sindx; simp [visitLoop]
  | cons i rest ih =>
      intro sindx
      by_cases hc : imageids[sindx]? = some i
      · simp only [visitLoop, if_pos hc]
        exact (ih (sindx + 1)).cons i
      · simp only [visitLoop, if_neg hc]
        exact (ih sindx).cons₂ i

/-- Ids never written keep their initial matrix value. -/
lemma writeList_not_mem {α : Type} :
    ∀ (visit : List ℕ) (vals : List α) (m : ℕ → α) (j : ℕ),
      j ∉ visit → writeList m visit vals j = m j := by
  intro visit
  induction visit with
  | nil => intro vals m j _; cases vals <;> rfl
  | cons i rest ih =>
      intro vals m j hj
      cases vals with
      | nil => rfl
      | cons r rs =>
          simp only [List.mem_cons, not_or] at hj
          simp only [writeList]
          rw [ih rs _ j hj.2, Function.update_noteq hj.1]

/-- Writing distinct in-range values over a zeroed region adds exactly their
sum to the total of the region. -/
lemma writeList_sum {α : Type} [CommRing α] (n : ℕ) :
    ∀ (visit : List ℕ) (vals : List α) (m : ℕ → α),
      visit.Nodup → (∀ i ∈ visit, i < n) → (∀ i ∈ visit, m i = 0) →
      visit.length = vals.length →
      ∑ i ∈ Finset.range n, writeList m visit vals i
        = (∑ i ∈ Finset.range n, m i) + vals.sum := by
  intro visit
  induction visit with
  | nil =>
      intro vals m _ _ _ hlen
      cases vals with
      | nil => simp [writeList]
      | cons r rs => cases hlen
  | cons i rest ih =>
      intro vals m hnd hlt hzero hlen
      cases vals with
      | nil => cases hlen
      | cons r rs =>
          simp only [List.nodup_cons] at hnd
          simp only [writeList]
          have hupd : ∀ k ∈ rest, Function.update m i r k = 0 := by
            intro k hk
            have hki : k ≠ i := by
              intro h
              exact hnd.1 (h ▸ hk)
            rw [Function.update_noteq hki]
            exact hzero k (List.mem_cons_of_mem _ hk)
          rw [ih rs (Function.update m i r) hnd.2
            (fun k hk => hlt k (List.mem_cons_of_mem _ hk)) hupd
            (by simpa using hlen)]
          have hin : i ∈ Finset.range n :=
            Finset.mem_range.mpr (hlt i (List.mem_cons_self _ _))
          rw [Finset.sum_update_of_mem hin,
            Finset.sum_eq_sum_diff_singleton_add hin,
            hzero i (List.mem_cons_self _ _)]
          simp only [List.sum_cons]
          ring

/-- Walking an ascending contiguous id range against a strictly sorted image
list skips every image element: no image id is ever visited. -/
lemma visitLoop_asc_skip (imageids : List ℕ)
    (hsort : List.Pairwise (· < ·) imageids) :
    ∀ (len s sindx : ℕ),
      (∀ (k e : ℕ), k < sindx → imageids[k]? = some e → e < s) →
      (∀ (k e : ℕ), sindx ≤ k → imageids[k]? = some e → s ≤ e) →
      ∀ x ∈ imageids, x ∉ visitLoop imageids (List.range' s len) sindx := by
  have hO : ∀ (a b ea eb : ℕ), a < b → imageids[a]? = some ea →
      imageids[b]? = some eb → ea < eb := by
    intro a b ea eb hab ha hb
    obtain ⟨hal, hae⟩ := List.getElem?_eq_some_iff.mp ha
    obtain ⟨hbl, hbe⟩ := List.getElem?_eq_some_iff.mp hb
    subst hae
    subst hbe
    exact List.pairwise_iff_getElem.mp hsort a b hal hbl hab
  intro len
  induction len with
  | zero =>
      intro s sindx _ _ x _
      simp [visitLoop]
  | succ len ih =>
      intro s sindx h1 h2 x hx
      rw [List.range'_succ]
      by_cases hc : imageids[sindx]? = some s
      · simp only [visitLoop, if_pos hc]
        refine ih (s + 1) (sindx + 1) ?_ ?_ x hx
        · intro k e hk hke
          rcases Nat.lt_succ_iff_lt_or_eq.mp hk with hlt | heq
          · exact Nat.lt_succ_of_lt (h1 k e hlt hke)
          · subst heq
            rw [hc] at hke
            cases hke
            omega
        · intro k e hk hke
          exact hO sindx k s e hk hc hke
      · have hnots : ∀ (k : ℕ), sindx ≤ k → imageids[k]? = some s → False := by
          intro k hk hke
          rcases Nat.lt_or_ge sindx k with hlt | hge
          · have hkl : k < imageids.length :=
              (List.getElem?_eq_some_iff.mp hke).1
            have hsl : sindx < imageids.length := lt_trans hlt hkl
            have h0 : imageids[sindx]? = some imageids[sindx] :=
              List.getElem?_eq_getElem hsl
            have hle : s ≤ imageids[sindx] := h2 sindx imageids[sindx] le_rfl h0
            have hlt2 : imageids[sindx] < s := hO sindx k imageids[sindx] s hlt h0 hke
            omega
          · have : k = sindx := by omega
            subst this
            exact hc hke
        simp only [visitLoop, if_neg hc, List.mem_cons, not_or]
        constructor
        · intro heq
          subst heq
          obtain ⟨k, hk⟩ := List.mem_iff_getElem?.mp hx
          rcases Nat.lt_or_ge k sindx with hlt | hge
          · have := h1 k x hlt hk
            omega
          · exact hnots k hge hk
        · refine ih (s + 1) sindx ?_ ?_ x hx
          · intro k e hk hke
            exact Nat.lt_succ_of_lt (h1 k e hk hke)
          · intro k e hk hke
            have hle : s ≤ e := h2 k e hk hke
            have hne : e ≠ s := by
              intro heq
              subst heq
              exact hnots k hk hke
            omega

/-- C1 (amended): `total` and `integrand` traverse exactly the same elements
with the same skip logic, so over exact arithmetic (Kahan compensation stays
zero) the two calls succeed together and `total` equals the sum of the entries
of the returned row matrix — skipped and unvisited entries being zero. When no
selection is given (the traversal is the full ascending range) and the image
list is duplicate-free, every element listed as a symmetry image is skipped,
so its matrix entry is zero. Under a selection iterated in an order that
disagrees with the sorted image-id pointer, an image element may be visited by
both operations (see the counterexample). -/
theorem c1_total_eq_sum_integrand {α : Type} [CommRing α] (n : ℕ)
    (integrand : ℕ → Option α) (pairs : List (ℕ × ℕ)) (sel : Option (List ℕ))
    (hord : (elementOrder n sel).Nodup)
    (hlt : ∀ i ∈ elementOrder n sel, i < n) :
    ((functional_sumintegrand n integrand pairs sel).isSome
      = (functional_mapintegrand n integrand pairs sel).isSome)
    ∧ (∀ s : α, functional_sumintegrand n integrand pairs sel = some s →
        ∃ m, functional_mapintegrand n integrand pairs sel = some m
          ∧ s = ∑ i ∈ Finset.range n, m i)
    ∧ ((pairs.map Prod.snd).Nodup → sel = none →
        ∀ m, functional_mapintegrand n integrand pairs sel = some m →
          ∀ x ∈ functional_symmetryimagelist pairs true, m x = 0) := by
  have hvisit_nodup : (visitLoop (functional_symmetryimagelist pairs true)
      (elementOrder n sel) 0).Nodup :=
    (visitLoop_sublist _ _ _).nodup hord
  have hvisit_lt : ∀ i ∈ visitLoop (functional_symmetryimagelist pairs true)
      (elementOrder n sel) 0, i < n :=
    fun i hi => hlt i ((visitLoop_sublist _ _ _).subset hi)
  refine ⟨?_, ?_, ?_⟩
  · show (Option.map Prod.fst (sumintegrandLoop integrand
        (functional_symmetryimagelist pairs true) (elementOrder n sel) 0 0 0)).isSome
      = (mapintegrandLoop integrand (functional_symmetryimagelist pairs true)
        (elementOrder n sel) 0 (fun _ => 0)).isSome
    rw [sumintegrandLoop_eq, mapintegrandLoop_eq]
    cases visitVals integrand (functional_symmetryimagelist pairs true)
      (elementOrder n sel) 0 <;> rfl
  · intro s hs
    unfold functional_sumintegrand at hs
    rw [sumintegrandLoop_eq] at hs
    cases hv : visitVals integrand (functional_symmetryimagelist pairs true)
        (elementOrder n sel) 0 with
    | none => rw [hv] at hs; cases hs
    | some l =>
        rw [hv] at hs
        simp only [Option.map_some', Option.some.injEq] at hs
        refine ⟨writeList (fun _ => 0)
          (visitLoop (functional_symmetryimagelist pairs true) (elementOrder n sel) 0) l,
          ?_, ?_⟩
        · unfold functional_mapintegrand
          rw [mapintegrandLoop_eq, hv]
          rfl
        · rw [writeList_sum n _ l _ hvisit_nodup hvisit_lt (fun _ _ => rfl)
            (visitVals_length integrand _ _ 0 l hv)]
          rw [← hs]
          simp
  · intro hnd hselnone m hm x hx
    subst hselnone
    unfold functional_mapintegrand at hm
    rw [mapintegrandLoop_eq] at hm
    cases hv : visitVals integrand (functional_symmetryimagelist pairs true)
        (elementOrder n none) 0 with
    | none => rw [hv] at hm; cases hm
    | some l =>
        rw [hv] at hm
        simp only [Option.map_some', Option.some.injEq] at hm
        have himg_le : List.Sorted (· ≤ ·) (functional_symmetryimagelist pairs true) :=
          List.sorted_insertionSort _ _
        have himg_nd : (functional_symmetryimagelist pairs true).Nodup :=
          (List.perm_insertionSort _ _).nodup_iff.mpr hnd
        have himg_lt : List.Pairwise (· < ·) (functional_symmetryimagelist pairs true) :=
          himg_le.lt_of_le himg_nd
        have hordr : elementOrder n (none : Option (List ℕ)) = List.range' 0 n := by
          unfold elementOrder
          exact List.range_eq_range' n
        have hx_not : x ∉ visitLoop (functional_symmetryimagelist pairs true)
            (elementOrder n none) 0 := by
          rw [hordr]
          refine visitLoop_asc_skip _ himg_lt n 0 0 ?_ ?_ x hx
          · intro k e hk _
            omega
          · intro k e _ _
            omega
        rw [← hm]
        exact writeList_not_mem _ l _ x hx_not

/-- C1 witness: three elements, image list [2]; both operations skip element 2,
succeed together, and the total 3 equals the sum of the matrix entries. -/
theorem c1_witness :
    ((functional_sumintegrand 3 (fun i => some ((i : ℤ) + 1)) [(0, 2)] none).isSome
      = (functional_mapintegrand 3 (fun i => some ((i : ℤ) + 1)) [(0, 2)] none).isSome)
    ∧ ∃ m, functional_mapintegrand 3 (fun i => some ((i : ℤ) + 1)) [(0, 2)] none = some m
        ∧ (3 : ℤ) = ∑ i ∈ Finset.range 3, m i :=
  ⟨(c1_total_eq_sum_integrand 3 (fun i => some ((i : ℤ) + 1)) [(0, 2)] none
      (by decide) (by decide)).1,
   (c1_total_eq_sum_integrand 3 (fun i => some ((i : ℤ) + 1)) [(0, 2)] none
      (by decide) (by decide)).2.1 3 (by decide)⟩

/-- C1 counterexample: element 5 is listed as a symmetry image (images sorted
ascending are [2, 5]), yet with the selection traversed in the order [3, 5] the
pointer still waits on image 2 when element 5 is reached, so element 5 is
visited by both operations: the total includes its integrand value 1 (a skip
would give total 0) and its matrix entry is written to 1 — refuting "elements
listed as symmetry images in C(g,g) are skipped by both operations". -/
theorem c1_counterexample :
    (5 ∈ functional_symmetryimagelist [(0, 2), (1, 5)] true)
    ∧ functional_sumintegrand 6
        (fun i => if i = 5 then some (1 : ℤ) else some 0) [(0, 2), (1, 5)]
        (some [3, 5]) = some 1
    ∧ (functional_mapintegrand 6
        (fun i => if i = 5 then some (1 : ℤ) else some 0) [(0, 2), (1, 5)]
        (some [3, 5])).map (fun m => m 5) = some 1 := by
  refine ⟨by decide, by decide, by decide⟩

/- ********************************************************************** -/
/- Brent 1-D minimization (optimize.morpho, fn brent)                      -/
/- ********************************************************************** -/

/-- `zeps = 1e-10`. -/
def zeps {α : Type} [LinearOrderedField α] : α := 1 / 10 ^ 10

/-- `cgold = 0.3819660`. -/
def cgold {α : Type} [LinearOrderedField α] : α := 3819660 / 10 ^ 7

/-- The inner `sign(x, y)` helper of `brent`: `sign(y) * |x|` with sign 0 at 0. -/
def brentSign {α : Type} [LinearOrderedField α] (x y : α) : α :=
  if y < 0 then -|x| else if 0 < y then |x| else 0

/-- The loop state of `brent`: bracket ends `a < b`, the three best points
`x, w, v` with values `fx, fw, fv`, and the last two displacements `d, e`. -/
structure BrentState (α : Type) where
  a : α
  b : α
  x : α
  w : α
  v : α
  fx : α
  fw : α
  fv : α
  d : α
  e : α

/-- `tol1 = tol * |x| + zeps`. -/
def brentTol1 {α : Type} [LinearOrderedField α] (tol : α) (st : BrentState α) : α :=
  tol * |st.x| + zeps

/-- The parabola coefficients of one `brent` iteration:
`r = (x-w)(fx-fv); q = (x-v)(fx-fw); p = (x-v)q - (x-w)r; q = 2(q-r);
if (q>0) p = -p; q = |q|`. -/
def brentPQ {α : Type} [LinearOrderedField α] (st : BrentState α) : α × α :=
  ((if 0 < 2 * ((st.x - st.v) * (st.fx - st.fw) - (st.x - st.w) * (st.fx - st.fv))
    then -((st.x - st.v) * ((st.x - st.v) * (st.fx - st.fw))
        - (st.x - st.w) * ((st.x - st.w) * (st.fx - st.fv)))
    else (st.x - st.v) * ((st.x - st.v) * (st.fx - st.fw))
        - (st.x - st.w) * ((st.x - st.w) * (st.fx - st.fv))),
   |2 * ((st.x - st.v) * (st.fx - st.fw) - (st.x - st.w) * (st.fx - st.fv))|)

/-- The golden-section displacement source: `a - x` when `x ≥ xm`, else `b - x`. -/
def brentGold {α : Type} [LinearOrderedField α] (st : BrentState α) : α :=
  if (st.a + st.b) / 2 ≤ st.x then st.a - st.x else st.b - st.x

/-- The displacement update `(d, e)` of one `brent` iteration: a parabolic step
is modelled only when `|e| > tol1` and the fit is acceptable (`|p| <
|½q·e_prev|` and `q(a-x) < p < q(b-x)`), taking `d = p/q` unless the trial
point falls within `tol2` of a bracket end (then a `tol1`-sized step toward
`xm`), with `e` set to the previous `d`; in every other case a golden-section
step `d = cgold·e'` with `e'` the golden displacement source. -/
def brentDE {α : Type} [LinearOrderedField α] (tol : α) (st : BrentState α) :
    α × α :=
  if brentTol1 tol st < |st.e| then
    if |1 / 2 * (brentPQ st).2 * st.e| ≤ |(brentPQ st).1|
        ∨ (brentPQ st).1 ≤ (brentPQ st).2 * (st.a - st.x)
        ∨ (brentPQ st).2 * (st.b - st.x) ≤ (brentPQ st).1 then
      (cgold * brentGold st, brentGold st)
    else
      if st.x + (brentPQ st).1 / (brentPQ st).2 - st.a < 2 * brentTol1 tol st
          ∨ st.b - (st.x + (brentPQ st).1 / (brentPQ st).2) < 2 * brentTol1 tol st then
        (brentSign (brentTol1 tol st) ((st.a + st.b) / 2 - st.x), st.d)
      else ((brentPQ st).1 / (brentPQ st).2, st.d)
  else (cgold * brentGold st, brentGold st)

/-- The trial point of one `brent` iteration:
`u = x + d` when `|d| ≥ tol1`, else `u = x + sign(tol1, d)`. -/
def brentU {α : Type} [LinearOrderedField α] (tol : α) (st : BrentState α) : α :=
  if brentTol1 tol st ≤ |(brentDE tol st).1| then st.x + (brentDE tol st).1
  else st.x + brentSign (brentTol1 tol st) (brentDE tol st).1

/-- One iteration of `brent`: return `[x, fx]` when
`|x - xm| ≤ tol2 - ½(b - a)`; otherwise evaluate the trial point and update
the bracket and the three best points. -/
def brentStep {α : Type} [LinearOrderedField α] (tol : α) (f : α → α)
    (st : BrentState α) : (α × α) ⊕ BrentState α :=
  if |st.x - (st.a + st.b) / 2| ≤ 2 * brentTol1 tol st - (st.b - st.a) / 2 then
    Sum.inl (st.x, st.fx)
  else
    if f (brentU tol st) ≤ st.fx then
      Sum.inr
        { a := if st.x ≤ brentU tol st then st.x else st.a,
          b := if st.x ≤ brentU tol st then st.b else st.x,
          x := brentU tol st, w := st.x, v := st.w,
          fx := f (brentU tol st), fw := st.fx, fv := st.fw,
          d := (brentDE tol st).1, e := (brentDE tol st).2 }
    else
      if f (brentU tol st) ≤ st.fw ∨ st.w = st.x then
        Sum.inr
          { a := if brentU tol st < st.x then brentU tol st else st.a,
            b := if brentU tol st < st.x then st.b else brentU tol st,
            x := st.x, w := brentU tol st, v := st.w,
            fx := st.fx, fw := f (brentU tol st), fv := st.fw,
            d := (brentDE tol st).1, e := (brentDE tol st).2 }
      else if f (brentU tol st) ≤ st.fv ∨ st.v = st.x ∨ st.v = st.w then
        Sum.inr
          { a := if brentU tol st < st.x then brentU tol st else st.a,
            b := if brentU tol st < st.x then st.b else brentU tol st,
            x := st.x, w := st.w, v := brentU tol st,
            fx := st.fx, fw := st.fw, fv := f (brentU tol st),
            d := (brentDE tol st).1, e := (brentDE tol st).2 }
      else
        Sum.inr
          { a := if brentU tol st < st.x then brentU tol st else st.a,
            b := if brentU tol st < st.x then st.b else brentU tol st,
            x := st.x, w := st.w, v := st.v,
            fx := st.fx, fw := st.fw, fv := st.fv,
            d := (brentDE tol st).1, e := (brentDE tol st).2 }

/-- The iteration loop of `brent`: after `itermax` iterations the current
`[x, fx]` is returned. -/
def brentLoop {α : Type} [LinearOrderedField α] (tol : α) (f : α → α) :
    ℕ → BrentState α → α × α
  | 0, st => (st.x, st.fx)
  | nIter + 1, st =>
      match brentStep tol f st with
      | Sum.inl res => res
      | Sum.inr st2 => brentLoop tol f nIter st2

/-- `brent(bracket, func, tol, itermax)`: order the bracket ends, start with
`v = w = x = bracket[1]` and `d = e = 0`. -/
def brent {α : Type} [LinearOrderedField α] (bracket : α × α × α) (f : α → α)
    (tol : α) (itermax : ℕ) : α × α :=
  brentLoop tol f itermax
    { a := if bracket.1 < bracket.2.2 then bracket.1 else bracket.2.2,
      b := if bracket.2.2 < bracket.1 then bracket.1 else bracket.2.2,
      x := bracket.2.1, w := bracket.2.1, v := bracket.2.1,
      fx := f bracket.2.1, fw := f bracket.2.1, fv := f bracket.2.1,
      d := 0, e := 0 }

/-- C7 (amended): with `cgold = 0.3819660` and `zeps = 1e-10`, an iteration
returns `(x, fx)` whenever `|x - xm| ≤ tol2 - ½(b - a)` with
`tol1 = tol·|x| + zeps`, `tol2 = 2·tol1`; the parabolic displacement is
accepted exactly when `|e_prev| > tol1`, `|p| < |½q·e_prev|` and
`q(a-x) < p < q(b-x)` — taking `d = p/q` away from the bracket ends and
keeping `e = d_prev` — and in every other case a golden-section displacement
`d = cgold·e'` is taken. The accepted parabolic step is *not* required to have
magnitude ≥ tol1: a smaller one is clamped at application time (see the
counterexample). -/
theorem c7_brent_amended {α : Type} [LinearOrderedField α] (tol : α)
    (f : α → α) (st : BrentState α) :
    (|st.x - (st.a + st.b) / 2| ≤ 2 * brentTol1 tol st - (st.b - st.a) / 2 →
      brentStep tol f st = Sum.inl (st.x, st.fx))
    ∧ ((brentTol1 tol st < |st.e|
        ∧ |(brentPQ st).1| < |1 / 2 * (brentPQ st).2 * st.e|
        ∧ (brentPQ st).2 * (st.a - st.x) < (brentPQ st).1
        ∧ (brentPQ st).1 < (brentPQ st).2 * (st.b - st.x)) →
      ((brentDE tol st).2 = st.d
        ∧ (¬(st.x + (brentPQ st).1 / (brentPQ st).2 - st.a < 2 * brentTol1 tol st
            ∨ st.b - (st.x + (brentPQ st).1 / (brentPQ st).2) < 2 * brentTol1 tol st) →
          (brentDE tol st).1 = (brentPQ st).1 / (brentPQ st).2)))
    ∧ (¬(brentTol1 tol st < |st.e|
        ∧ |(brentPQ st).1| < |1 / 2 * (brentPQ st).2 * st.e|
        ∧ (brentPQ st).2 * (st.a - st.x) < (brentPQ st).1
        ∧ (brentPQ st).1 < (brentPQ st).2 * (st.b - st.x)) →
      brentDE tol st = (cgold * brentGold st, brentGold st)) := by
  refine ⟨?_, ?_, ?_⟩
  · intro h
    unfold brentStep
    rw [if_pos h]
  · rintro ⟨h1, h2, h3, h4⟩
    have hbad : ¬(|1 / 2 * (brentPQ st).2 * st.e| ≤ |(brentPQ st).1|
        ∨ (brentPQ st).1 ≤ (brentPQ st).2 * (st.a - st.x)
        ∨ (brentPQ st).2 * (st.b - st.x) ≤ (brentPQ st).1) := by
      push_neg
      exact ⟨h2, h3, h4⟩
    unfold brentDE
    rw [if_pos h1, if_neg hbad]
    constructor
    · by_cases hb : st.x + (brentPQ st).1 / (brentPQ st).2 - st.a < 2 * brentTol1 tol st
          ∨ st.b - (st.x + (brentPQ st).1 / (brentPQ st).2) < 2 * brentTol1 tol st
      · rw [if_pos hb]
      · rw [if_neg hb]
    · intro hb
      rw [if_neg hb]
  · intro h
    unfold brentDE
    by_cases h1 : brentTol1 tol st < |st.e|
    · rw [if_pos h1]
      have hbad : |1 / 2 * (brentPQ st).2 * st.e| ≤ |(brentPQ st).1|
          ∨ (brentPQ st).1 ≤ (brentPQ st).2 * (st.a - st.x)
          ∨ (brentPQ st).2 * (st.b - st.x) ≤ (brentPQ st).1 := by
        by_contra hc
        push_neg at hc
        exact h ⟨h1, hc.1, hc.2.1, hc.2.2⟩
      rw [if_pos hbad]
    · rw [if_neg h1]

/-- The concrete iteration state refuting C7 as stated: the parabola vertex is
exactly at `x` (p = 0), the previous displacement `e = 1/2` is large, and the
bracket is (-1, 1) around `x = 0`. -/
def c7state : BrentState ℚ :=
  { a := -1, b := 1, x := 0, w := -(1 / 2), v := 1 / 2,
    fx := 0, fw := 1, fv := 1, d := 1 / 4, e := 1 / 2 }

/-- C7 counterexample: at `c7state` with `tol = 0`, all acceptance conditions
hold and the parabolic branch is taken (d = p/q = 0, e = previous d = 1/4) —
not a golden-section step — yet the applied step `u - x` has magnitude
0 < tol1, refuting "accepts a parabolic interpolation step only when … the
step magnitude is at least tol₁ ; in every other case it takes a
golden-section step". -/
theorem c7_counterexample :
    (brentTol1 (0 : ℚ) c7state < |c7state.e|
      ∧ |(brentPQ c7state).1| < |1 / 2 * (brentPQ c7state).2 * c7state.e|
      ∧ (brentPQ c7state).2 * (c7state.a - c7state.x) < (brentPQ c7state).1
      ∧ (brentPQ c7state).1 < (brentPQ c7state).2 * (c7state.b - c7state.x))
    ∧ brentDE (0 : ℚ) c7state = (0, 1 / 4)
    ∧ brentU (0 : ℚ) c7state = c7state.x
    ∧ |brentU (0 : ℚ) c7state - c7state.x| < brentTol1 (0 : ℚ) c7state
    ∧ brentDE (0 : ℚ) c7state ≠ (cgold * brentGold c7state, brentGold c7state) := by
  have habs : |(1 : ℚ) / 2| = 1 / 2 := abs_of_pos (by norm_num)
  have hpq : brentPQ c7state = (0, 2) := by
    norm_num [brentPQ, c7state]
  have htol : brentTol1 (0 : ℚ) c7state = 1 / 10 ^ 10 := by
    norm_num [brentTol1, c7state, zeps]
  have hde : brentDE (0 : ℚ) c7state = (0, 1 / 4) := by
    unfold brentDE
    rw [hpq, htol]
    norm_num [c7state, zeps, habs]
  have hu : brentU (0 : ℚ) c7state = c7state.x := by
    unfold brentU
    rw [hde, htol]
    norm_num [brentSign, c7state]
  refine ⟨?_, hde, hu, ?_, ?_⟩
  · rw [hpq, htol]
    norm_num [c7state, habs]
  · rw [hu, htol]
    norm_num
  · rw [hde]
    intro heq
    have h2 : (1 : ℚ) / 4 = brentGold c7state := congrArg Prod.snd heq
    rw [brentGold, c7state] at h2
    norm_num at h2

/-- C7 witness: a converged state returns `(x, fx)`, and a state with `e = 0`
takes a golden-section displacement. -/
theorem c7_witness :
    brentStep (0 : ℚ) (fun _ => 7) (BrentState.mk 0 0 0 0 0 7 7 7 0 0)
      = Sum.inl (0, 7)
    ∧ brentDE (0 : ℚ) (BrentState.mk 0 2 1 1 1 5 5 5 0 0)
      = (cgold * brentGold (BrentState.mk 0 2 1 1 1 5 5 5 0 0),
          brentGold (BrentState.mk 0 2 1 1 1 5 5 5 0 0)) :=
  ⟨(c7_brent_amended 0 (fun _ => 7) (BrentState.mk 0 0 0 0 0 7 7 7 0 0)).1
      (by norm_num [brentTol1, zeps]),
   (c7_brent_amended 0 (fun _ => 5) (BrentState.mk 0 2 1 1 1 5 5 5 0 0)).2.2
      (by norm_num [brentTol1, zeps])⟩

/- ********************************************************************** -/
/- Optimizer.bracketstepsize, dolinesearch, linesearch (optimize.morpho)   -/
/- ********************************************************************** -/

/-- The bracketing loop of `Optimizer.bracketstepsize` over the energy oracle
`E = energywithstepsize` with fixed `s₀ = 0` and `E(s₀)` standing as the
pre-step total energy `e0`. The `fuel` argument encodes the remaining passes
allowed by the `iter > 10` guard: the loop condition is still tested when fuel
runs out (the code tests it at the top of the final pass before giving up),
and a pass at fuel 0 that would adjust again gives up instead — its wasted
adjustment being unobservable here. Giving up (both on exhaustion and on a
flat bracket) returns nil, raising no error. -/
def bracketstepsizeAux {α : Type} [LinearOrderedField α] (E : α → α) (e0 : α) :
    ℕ → α → α → α → α → Option ((α × α × α) × (α × α × α))
  | 0, s1, s2, b1, b2 =>
      if b1 < e0 ∧ b1 < b2 then some ((0, s1, s2), (e0, b1, b2)) else none
  | fuel + 1, s1, s2, b1, b2 =>
      if b1 < e0 ∧ b1 < b2 then some ((0, s1, s2), (e0, b1, b2))
      else if b2 < b1 then
        bracketstepsizeAux E e0 fuel s2 (2 * s2) b2 (E (2 * s2))
      else if e0 < b1 then
        bracketstepsizeAux E e0 fuel (s1 / 2) s2 (E (s1 / 2)) b2
      else none

/-- `Optimizer.bracketstepsize()`: start from trial sizes `(0, h, 2h)` with
energies `(e0, E(h), E(2h))`; the `iter > 10` guard allows 11 adjustments
whose result is still tested, so fuel starts at 11. -/
def Optimizer.bracketstepsize {α : Type} [LinearOrderedField α] (E : α → α)
    (e0 stepsize : α) : Option ((α × α × α) × (α × α × α)) :=
  bracketstepsizeAux E e0 11 stepsize (2 * stepsize) (E stepsize)
    (E (2 * stepsize))

/-- `Optimizer.dolinesearch()`: bracket, then Brent-minimize `E` over the
bracket with `tol = linmintol` and at most `linminmax` iterations; on
bracketing failure report failure, otherwise the optimal step size. -/
def Optimizer.dolinesearch {α : Type} [LinearOrderedField α] (E : α → α)
    (e0 linmintol : α) (linminmax : ℕ) (stepsize : α) : Option α :=
  match Optimizer.bracketstepsize E e0 stepsize with
  | none => none
  | some br => some (brent br.1 E linmintol linminmax).1

/-- `Optimizer.hasconverged()`: with at least two recorded energies, converged
when `|e[-1]| < etol` or `|e[-1] - e[-2]| / |e[-1]| < etol`. -/
def Optimizer.hasconverged {α : Type} [LinearOrderedField α] (etol : α)
    (energy : List α) : Bool :=
  match energy.reverse with
  | e1 :: e2 :: _ => decide (|e1| < etol ∨ |e1 - e2| / |e1| < etol)
  | _ => false

/-- The outer loop of `Optimizer.linesearch(n)` on state (target, energy
history, stepsize): each pass computes the force, runs `dolinesearch`
(abstracted as `doline` over target, force and current stepsize), breaks with
the state intact when it fails, otherwise clamps the new stepsize to
`steplimit`, steps, appends the total energy and stops on convergence. -/
def Optimizer.linesearch {M α : Type} [LinearOrderedField α]
    (totalforce : M → M) (doline : M → M → α → Option α) (steplimit etol : α)
    (stepFn : M → α → M → M) (energyOf : M → α) :
    ℕ → M × List α × α → M × List α × α
  | 0, st => st
  | nIter + 1, (v, hist, ssize) =>
      match doline v (totalforce v) ssize with
      | none => (v, hist, ssize)
      | some snew =>
          if Optimizer.hasconverged etol
              (hist ++ [energyOf (stepFn (totalforce v)
                (if steplimit < snew then steplimit else snew) v)]) then
            (stepFn (totalforce v) (if steplimit < snew then steplimit else snew) v,
              hist ++ [energyOf (stepFn (totalforce v)
                (if steplimit < snew then steplimit else snew) v)],
              if steplimit < snew then steplimit else snew)
          else
            Optimizer.linesearch totalforce doline steplimit etol stepFn energyOf
              nIter
              (stepFn (totalforce v) (if steplimit < snew then steplimit else snew) v,
                hist ++ [energyOf (stepFn (totalforce v)
                  (if steplimit < snew then steplimit else snew) v)],
                if steplimit < snew then steplimit else snew)

/-- A successful bracket always satisfies the descending condition. -/
lemma bracketstepsizeAux_descending {α : Type} [LinearOrderedField α]
    (E : α → α) (e0 : α) :
    ∀ (fuel : ℕ) (s1 s2 b1 b2 : α) (res : (α × α × α) × (α × α × α)),
      bracketstepsizeAux E e0 fuel s1 s2 b1 b2 = some res →
      res.1.1 = 0 ∧ res.2.1 = e0 ∧ res.2.2.1 < e0 ∧ res.2.2.1 < res.2.2.2 := by
  intro fuel
  induction fuel with
  | zero =>
      intro s1 s2 b1 b2 res h
      simp only [bracketstepsizeAux] at h
      split_ifs at h with hcond
      cases h
      exact ⟨rfl, rfl, hcond.1, hcond.2⟩
  | succ fuel ih =>
      intro s1 s2 b1 b2 res h
      simp only [bracketstepsizeAux] at h
      split_ifs at h with hcond h2 h3
      · cases h
        exact ⟨rfl, rfl, hcond.1, hcond.2⟩
      · exact ih _ _ _ _ res h
      · exact ih _ _ _ _ res h

/-- C6 (amended): bracketing starts from trial sizes `s₀ = 0`,
`s₁ = stepsize`, `s₂ = 2·stepsize` and expands or contracts until
`E(s₁) < E(s₀)` and `E(s₁) < E(s₂)`; the `iter > 10` guard means a bracket
found within **11** adjustment iterations is still returned, and only after
that does the loop give up, without raising an error; and when `dolinesearch`
fails, `linesearch(n)` exits its outer loop with the current state intact,
returning the accumulated energy history. -/
theorem c6_bracket_linesearch_amended {M α : Type} [LinearOrderedField α] :
    (∀ (E : α → α) (e0 h : α) (res : (α × α × α) × (α × α × α)),
        Optimizer.bracketstepsize E e0 h = some res →
        res.1.1 = 0 ∧ res.2.1 = e0 ∧ res.2.2.1 < e0 ∧ res.2.2.1 < res.2.2.2)
    ∧ (∀ (totalforce : M → M) (doline : M → M → α → Option α)
        (steplimit etol : α) (stepFn : M → α → M → M) (energyOf : M → α)
        (nIter : ℕ) (v : M) (hist : List α) (ssize : α),
        doline v (totalforce v) ssize = none →
        Optimizer.linesearch totalforce doline steplimit etol stepFn energyOf
          (nIter + 1) (v, hist, ssize) = (v, hist, ssize)) := by
  constructor
  · intro E e0 h res hres
    exact bracketstepsizeAux_descending E e0 11 _ _ _ _ res hres
  · intro totalforce doline steplimit etol stepFn energyOf nIter v hist ssize hnone
    simp only [Optimizer.linesearch, hnone]

/-- The energy used to refute the claimed 10-iteration bound: a V shape whose
minimum sits at 2^11 = 2048, found only on the 11th doubling. -/
def c6energy : ℚ → ℚ := fun t => if t ≤ 2048 then -t else t - 4096

/-- C6 counterexample: with `c6energy`, no descending bracket exists within 10
expansion iterations (the run capped at 10 gives up), yet the code's loop —
whose guard `iter > 10` allows an 11th adjustment — succeeds and returns the
bracket (0, 2048, 4096), refuting "if no such bracket is found within 10
iterations it gives up". -/
theorem c6_counterexample :
    Optimizer.bracketstepsize c6energy (0 : ℚ) 1
      = some ((0, 2048, 4096), (0, -2048, 0))
    ∧ bracketstepsizeAux c6energy (0 : ℚ) 10 1 2 (c6energy 1) (c6energy 2)
      = none := by
  constructor
  · norm_num [Optimizer.bracketstepsize, bracketstepsizeAux, c6energy]
  · norm_num [bracketstepsizeAux, c6energy]

/-- C6 witness: an immediately bracketable parabola-shaped energy yields a
descending bracket, and a failing `doline` leaves the linesearch state
untouched. -/
theorem c6_witness :
    (Optimizer.bracketstepsize (fun t => (t - 1) ^ 2) (1 : ℚ) 1
        = some ((0, 1, 2), (1, 0, 1))
      ∧ ((((0 : ℚ), (1 : ℚ), (2 : ℚ)), ((1 : ℚ), (0 : ℚ), (1 : ℚ))).2.2.1
          < (((0 : ℚ), (1 : ℚ), (2 : ℚ)), ((1 : ℚ), (0 : ℚ), (1 : ℚ))).2.1
        ∧ (((0 : ℚ), (1 : ℚ), (2 : ℚ)), ((1 : ℚ), (0 : ℚ), (1 : ℚ))).2.2.1
          < (((0 : ℚ), (1 : ℚ), (2 : ℚ)), ((1 : ℚ), (0 : ℚ), (1 : ℚ))).2.2.2))
    ∧ Optimizer.linesearch (fun v : ℚ => v) (fun _ _ _ => none) 1 1
        (fun _ _ v => v) (fun v => v) 1 (3, [7], 2) = (3, [7], 2) := by
  have hb : Optimizer.bracketstepsize (fun t : ℚ => (t - 1) ^ 2) (1 : ℚ) 1
      = some ((0, 1, 2), (1, 0, 1)) := by
    norm_num [Optimizer.bracketstepsize, bracketstepsizeAux]
  refine ⟨⟨hb, ?_⟩, ?_⟩
  · have h := (@c6_bracket_linesearch_amended ℚ ℚ _).1
      (fun t => (t - 1) ^ 2) 1 1 ((0, 1, 2), (1, 0, 1)) hb
    exact ⟨h.2.2.1, h.2.2.2⟩
  · exact (@c6_bracket_linesearch_amended ℚ ℚ _).2 (fun v => v)
      (fun _ _ _ => none) 1 1 (fun _ _ v => v) (fun v => v) 0 3 [7] 2 rfl

end Morpho
